import Mathlib

/-!
Verification of the commit-history / commit-classification core of the
`release-note` tool against its natural-language specification.

The Rust sources are shallowly embedded: strings are Lean `String`s
(worked on through their `List Char` data), fallible operations return
`Option`, and the git object store behind `GitRepo::history` is embedded
as an explicit linear-chain repository value.
-/

/-- Character class `[a-z]` used by the conventional-commit header regex. -/
def isLowerAlpha (c : Char) : Bool :=
  'a' ≤ c && c ≤ 'z'

/-- Character class `[a-z-]` for the scope group of the header regex. -/
def isScopeChar (c : Char) : Bool :=
  isLowerAlpha c || c = '-'

/-- ASCII portion of the regex class `\s` (whitespace). -/
def isWsChar (c : Char) : Bool :=
  c = ' ' || c = '\t' || c = '\n' || c = '\r' || c = '\x0b' || c = '\x0c'

/-- Word-or-hyphen characters allowed in a trailer key after its first letter. -/
def isWordHyChar (c : Char) : Bool :=
  c.isAlpha || c.isDigit || c = '_' || c = '-'

/-- Substring test on character lists, embedding Rust `str::contains`. -/
def containsSub (pat : List Char) : List Char → Bool
  | [] => pat.isEmpty
  | c :: rest => pat.isPrefixOf (c :: rest) || containsSub pat rest

/-- Substring test on strings: `strContains s pat` embeds `s.contains(pat)`. -/
def strContains (s pat : String) : Bool :=
  containsSub pat.data s.data

/-- Prefix test on strings, embedding Rust `str::starts_with`. -/
def strStarts (s pat : String) : Bool :=
  pat.data.isPrefixOf s.data

/-- Numeric value of a digit run (used for issue numbers `#N`). -/
def natOfDigits (l : List Char) : Nat :=
  l.foldl (fun n c => 10 * n + (c.toNat - '0'.toNat)) 0

/-- Lower-cases every character of a string (case-insensitive comparisons). -/
def lowerStr (s : String) : String :=
  String.mk (s.data.map Char.toLower)

/-- Commit record as in `src/git.rs` (`pub struct Commit`): hash, first
line, optional body, optional footer, author. -/
structure Commit where
  hash : String
  first_line : String
  body : Option String
  footer : Option String
  author : String
deriving DecidableEq, Repr

/-- The closed `CommitCategory` enumeration exactly as declared in
`src/analyzer.rs` (note: it has no `Refactor` variant). -/
inductive CommitCategory where
  | Breaking
  | Feature
  | Fix
  | Dependencies
  | Documentation
  | CI
  | Test
  | Performance
  | Chore
  | Other
deriving DecidableEq, Repr

/-- Scope group `(?:\(([a-z-]+)\))?` of the header regex: on `'('` the
scope must be a non-empty `[a-z-]+` run closed by `')'` (otherwise the
whole match fails, since `'('` can match neither `!` nor `:`); on any
other head the group is skipped. -/
def parseScope : List Char → Option (Option (List Char) × List Char)
  | [] => some (none, [])
  | c :: r =>
      if c = '(' then
        match r.dropWhile isScopeChar with
        | [] => none
        | d :: r2 =>
            if d = ')' && !(r.takeWhile isScopeChar).isEmpty then
              some (some (r.takeWhile isScopeChar), r2)
            else none
      else some (none, c :: r)

/-- After at least one whitespace character, the regex `.+` needs one
character that is not a newline; a newline is itself whitespace, so the
`\s+` scan may extend over it. -/
def hasNonNl : List Char → Bool
  | [] => false
  | c :: rest => if c ≠ '\n' then true else hasNonNl rest

/-- Tail of the header after `:`: the regex `\s+.+` needs one whitespace
character and then one character that is not a newline. -/
def wsThenAny : List Char → Bool
  | [] => false
  | c :: rest => isWsChar c && hasNonNl rest

/-- Full header regex `^([a-z]+)(?:\(([a-z-]+)\))?!?:\s+.+` from
`CommitAnalyzer::parse_conventional_commit`, returning the captured type
and scope plus whether the breaking marker `!` was present. -/
def parseHeader (l : List Char) : Option (List Char × Option (List Char) × Bool) :=
  let ty := l.takeWhile isLowerAlpha
  if ty.isEmpty then none
  else
    match parseScope (l.dropWhile isLowerAlpha) with
    | none => none
    | some (sc, r2) =>
        match r2 with
        | [] => none
        | c :: r =>
            if c = '!' then
              match r with
              | [] => none
              | d :: r3 =>
                  if d = ':' && wsThenAny r3 then some (ty, sc, true) else none
            else if c = ':' then
              if wsThenAny r then some (ty, sc, false) else none
            else none

/-- `CommitAnalyzer::parse_conventional_commit`: the `(type, scope)`
captures of the header regex (the `!` marker is matched but not
captured). -/
def parseConventionalCommit (first_line : String) : Option (String × Option String) :=
  match parseHeader first_line.data with
  | some (ty, sc, _) => some (String.mk ty, sc.map String.mk)
  | none => none

/-- `CommitAnalyzer::is_breaking`: the first line contains `!:` anywhere,
or the footer starts with `BREAKING CHANGE:`. -/
def isBreaking (commit : Commit) : Bool :=
  strContains commit.first_line "!:" ||
    (match commit.footer with
     | some footer => strStarts footer "BREAKING CHANGE:"
     | none => false)

/-- `CommitAnalyzer::categorize`: breaking first; then the `deps` scope
override (only for types `fix`, `chore`, `build`); then the fixed type
table (`refactor` maps to `Feature`; there is no `Refactor` variant). -/
def categorize (commit : Commit) : CommitCategory :=
  if isBreaking commit then CommitCategory.Breaking
  else
    match parseConventionalCommit commit.first_line with
    | some (commitType, scope) =>
        if scope = some "deps" &&
            (commitType = "fix" || commitType = "chore" || commitType = "build") then
          CommitCategory.Dependencies
        else
          match commitType with
          | "feat" => CommitCategory.Feature
          | "refactor" => CommitCategory.Feature
          | "fix" => CommitCategory.Fix
          | "docs" => CommitCategory.Documentation
          | "ci" => CommitCategory.CI
          | "test" => CommitCategory.Test
          | "perf" => CommitCategory.Performance
          | "chore" => CommitCategory.Chore
          | _ => CommitCategory.Other
    | none => CommitCategory.Other

/-- `CategorizedCommits.by_category` as a total map from category to its
bucket (absent keys read as the empty list). -/
def CategorizedCommits : Type :=
  CommitCategory → List Commit

/-- `CommitAnalyzer::analyze`: fold over the commits, appending each
commit to the bucket of its category (entry/or_default/push). -/
def analyze (commits : List Commit) : CategorizedCommits :=
  commits.foldl
    (fun m c => fun cat => if cat = categorize c then m cat ++ [c] else m cat)
    (fun _ => [])

/-- Commit with only a first line, as built by the repo's test helpers. -/
def mkC (first_line : String) : Commit :=
  { hash := "abc123", first_line := first_line, body := none, footer := none
    author := "Test Author" }


/-- Splits a character list at every newline, keeping empty segments
(`"a\nb\n"` gives `["a","b",""]`). -/
def splitOnNl : List Char → List (List Char)
  | [] => [[]]
  | c :: rest =>
      if c = '\n' then [] :: splitOnNl rest
      else
        match splitOnNl rest with
        | [] => [[c]]
        | h :: t => (c :: h) :: t

/-- Rust `str::lines()`: empty string gives no lines, and a final
newline does not produce a trailing empty line. -/
def rustLines (s : String) : List String :=
  match s.data with
  | [] => []
  | cs =>
      let parts := (splitOnNl cs).map String.mk
      if cs.getLast? = some '\n' then parts.dropLast else parts

/-- Joins lines with a single newline separator (inverse of splitting;
used to embed `join("\n")`). -/
def joinLines : List String → String
  | [] => ""
  | [l] => l
  | l :: rest => l ++ "\n" ++ joinLines rest

/-- Index of the last element satisfying `p`, embedding Rust
`Iterator::rposition`. -/
def listRPos (p : String → Bool) (l : List String) : Option Nat :=
  match l.reverse.findIdx? p with
  | some i => some (l.length - 1 - i)
  | none => none

/-- `Commit::from_git2_commit` (src/git.rs): first line is line 0; the
remaining lines are split at the last blank line into body and footer,
each joined, trimmed, and mapped to `None` when empty. -/
def commitFromMessage (hash author message : String) : Commit :=
  let lines := rustLines message
  let first_line := (lines.head?).getD ""
  let pair :=
    if lines.length > 1 then
      let remaining := lines.drop 1
      match listRPos (fun line => line.trim.isEmpty) remaining with
      | some lastBlankIdx =>
          let bodyText := (joinLines (remaining.take lastBlankIdx)).trim
          let footerText := (joinLines (remaining.drop (lastBlankIdx + 1))).trim
          ((if bodyText.isEmpty then none else some bodyText),
           (if footerText.isEmpty then none else some footerText))
      | none =>
          let bodyText := (joinLines remaining).trim
          ((if bodyText.isEmpty then none else some bodyText), none)
    else (none, none)
  { hash := hash, first_line := first_line, body := pair.1, footer := pair.2
    author := author }

/-- Numeric component of a semantic version: non-empty digits without a
leading zero. -/
def semverNumeric (l : List Char) : Bool :=
  match l with
  | [] => false
  | ['0'] => true
  | '0' :: _ :: _ => false
  | _ => l.all Char.isDigit

/-- Characters permitted in pre-release / build metadata. -/
def isSemverMetaChar (c : Char) : Bool :=
  c.isAlpha || c.isDigit || c = '-' || c = '.'

/-- Abstraction of `semver::Version::parse` sufficient for the tags the
core handles: `MAJOR.MINOR.PATCH` of numeric components, optionally
followed by `-prerelease` or `+build` metadata. -/
def isSemverChars (l : List Char) : Bool :=
  let major := l.takeWhile (· ≠ '.')
  match l.dropWhile (· ≠ '.') with
  | '.' :: r1 =>
      let minor := r1.takeWhile (· ≠ '.')
      match r1.dropWhile (· ≠ '.') with
      | '.' :: r2 =>
          let patch := r2.takeWhile (fun c => c ≠ '-' && c ≠ '+')
          let suffix := r2.dropWhile (fun c => c ≠ '-' && c ≠ '+')
          semverNumeric major && semverNumeric minor && semverNumeric patch &&
            (match suffix with
             | [] => true
             | _ :: meta => !meta.isEmpty && meta.all isSemverMetaChar)
      | _ => false
  | _ => false

/-- Portion of a tag name after its last `/` (Rust
`tag_name.rsplit('/').next()`). -/
def versionPartOf (name : String) : List Char :=
  (name.data.reverse.takeWhile (· ≠ '/')).reverse

/-- `GitRepo::is_semver_tag`: the part after the last `/`, with an
optional leading `v` stripped, parses as a semantic version. -/
def isSemverTag (name : String) : Bool :=
  let vp := versionPartOf name
  match vp with
  | 'v' :: rest => isSemverChars rest
  | _ => isSemverChars vp

/-- `GitRepo::tag_matches_prefix`: with no namespace the name must contain
no `/`; with namespace `p` it must start with `p/`. -/
def tagMatchesNs (name : String) (ns : Option String) : Bool :=
  match ns with
  | none => !name.data.contains '/'
  | some p => (p ++ "/").data.isPrefixOf name.data

/-- `GitRepo::detect_prefix_from_from_ref`: if the `from` reference
contains a `/` and the part after the last `/` (with optional `v`)
parses as a semantic version, the part before it is the tag namespace. -/
def detectNs (fromRef : Option String) : Option String :=
  match fromRef with
  | none => none
  | some r =>
      if r.data.contains '/' then
        let verPart := versionPartOf r
        let toParse := match verPart with
          | 'v' :: rest => rest
          | l => l
        if isSemverChars toParse then
          some (String.mk (r.data.take (r.data.length - verPart.length - 1)))
        else none
      else none

/-- One revision of the embedded repository: raw message, author name and
author timestamp. -/
structure SimCommit where
  message : String
  author : String
  time : Int
deriving DecidableEq, Repr

/-- Embedded git repository restricted to a linear chain: the commit with
index `i` has parent `i - 1` (index 0 is the root, the last index is
`HEAD`), and commit ids are chain indices. `tags` lists the visible tag
names with their target index, in the order `Repository::tag_names`
yields them. -/
structure SimRepo where
  chain : List SimCommit
  tags : List (String × Nat)
deriving Repr

/-- The VCS capability `resolve_reference` (git2 `revparse_single`) for
tag-name references: the target of the tag with that name. -/
def simResolveRef (repo : SimRepo) (r : String) : Option Nat :=
  (repo.tags.find? (fun t => t.1 = r)).map (·.2)

/-- `HEAD` of the linear chain: its newest commit. -/
def simHead (repo : SimRepo) : Nat :=
  repo.chain.length - 1

/-- Insertion step of a stable descending sort by timestamp (Rust
`sort_by(|a, b| b.2.cmp(&a.2))` is stable). -/
def insertByTimeDesc (x : String × Nat × Int) :
    List (String × Nat × Int) → List (String × Nat × Int)
  | [] => [x]
  | y :: r => if x.2.2 < y.2.2 then y :: insertByTimeDesc x r else x :: y :: r

/-- Stable insertion sort, descending by timestamp. -/
def sortTagsDesc : List (String × Nat × Int) → List (String × Nat × Int)
  | [] => []
  | x :: r => insertByTimeDesc x (sortTagsDesc r)

/-- `GitRepo::load_tags_sorted`: keep namespace-matching semantic-version
tags, resolve each to its commit and timestamp (undereferenceable tags
are skipped), sort newest-first, and drop the timestamps. -/
def loadTagsSorted (repo : SimRepo) (ns : Option String) : List (String × Nat) :=
  let cands := repo.tags.filter (fun t => tagMatchesNs t.1 ns && isSemverTag t.1)
  let resolved := cands.filterMap
    (fun t => (repo.chain.get? t.2).map (fun c => (t.1, t.2, c.time)))
  (sortTagsDesc resolved).map (fun t => (t.1, t.2.1))

/-- Position of a commit id in the sorted tag list. The Rust code builds
a `HashMap` from `enumerate`, so a duplicated target keeps the largest
position. -/
def tagIdxPos (tags : List (String × Nat)) (oid : Nat) : Option Nat :=
  match (tags.enum.filter (fun it => it.2.2 = oid)).getLast? with
  | some it => some it.1
  | none => none

/-- `GitRepo::find_closest_tag` on the linear chain: walk ancestors of
`fromOid` (newest first) and return the first that is a tag target. -/
def findClosestTag (tags : List (String × Nat)) (fromOid : Nat) : Option Nat :=
  (List.range (fromOid + 1)).reverse.find? (fun i => tags.any (fun t => t.2 = i))

/-- Output commit for chain index `i`: `Commit::from_git2_commit` applied
to its id, author and message. -/
def simCommitOut (i : Nat) (c : SimCommit) : Commit :=
  commitFromMessage (toString i) c.author c.message

/-- `GitRepo::history` (src/git.rs) on the linear-chain repository with no
path filter. The namespace is inferred from `from`; `to` defaults to the
tag after `from`'s position in the sorted tag list, else the newest tag
when `from` is `HEAD`, else the closest ancestor tag. The revwalk pushes
`from` and hides `to`, so it yields exactly the indices in `(to, from]`
newest-first. Reference-resolution failure is `none`. -/
def simHistory (repo : SimRepo) (fromRef toRef : Option String) :
    Option (List Commit) :=
  let ns := detectNs fromRef
  let tags := loadTagsSorted repo ns
  let fromOid? := match fromRef with
    | some r => simResolveRef repo r
    | none => some (simHead repo)
  match fromOid? with
  | none => none
  | some fromOid =>
      let toOid? : Option (Option Nat) := match toRef with
        | some r =>
            match simResolveRef repo r with
            | some i => some (some i)
            | none => none
        | none =>
            match tagIdxPos tags fromOid with
            | some index =>
                match tags.get? (index + 1) with
                | some prevTag => some (some prevTag.2)
                | none => some none
            | none =>
                if tags.isEmpty then some none
                else if fromOid = simHead repo then
                  some ((tags.get? 0).map (·.2))
                else
                  match findClosestTag tags fromOid with
                  | some tagOid => some (some tagOid)
                  | none => some none
      match toOid? with
      | none => none
      | some toOid =>
          let walk := (List.range (fromOid + 1)).reverse.filter
            (fun i => match toOid with
              | some t => decide (t < i)
              | none => true)
          some (walk.filterMap
            (fun i => (repo.chain.get? i).map (fun c => simCommitOut i c)))


/-- Modelled from the spec: the `Trailer` tagged value (spec section 3).
The richer message parser it belongs to is not present in `src/git.rs`;
only its callers (`src/contributor`, which reads `commit.trailers` and
matches `GitTrailer::CoAuthoredBy`) and the integration tests (which call
`GitTrailer::from_key_value`) appear in the sources. -/
inductive GitTrailer where
  | CoAuthoredBy (name : String) (email : Option String)
  | ReviewedBy (name : String) (email : Option String)
  | SignedOffBy (name : String) (email : Option String)
  | Other (key : String) (value : String)
deriving DecidableEq, Repr

/-- Modelled from the spec: the `LinkedIssue` record (spec section 3);
equality is field-wise and underlies deduplication. -/
structure LinkedIssue where
  number : Nat
  owner : Option String
  repo : Option String
deriving DecidableEq, Repr

/-- Index of the first occurrence of `pat` as a contiguous sublist. -/
def findSubIdx (pat : List Char) : List Char → Option Nat
  | [] => if pat.isEmpty then some 0 else none
  | c :: rest =>
      if pat.isPrefixOf (c :: rest) then some 0
      else (findSubIdx pat rest).map (· + 1)

/-- Modelled from the spec: splitting a trailer value into name and
email (spec section 3): `Name <email>` or `Name (email)` split into the
two parts, a bare email-looking value (containing `@`) becomes both name
and email, anything else is a bare name. -/
def parseNameEmail (v : String) : String × Option String :=
  let cs := v.data
  match findSubIdx [' ', '<'] cs, cs.getLast? with
  | some i, some '>' =>
      (String.mk (cs.take i), some (String.mk ((cs.drop (i + 2)).dropLast)))
  | _, _ =>
      match findSubIdx [' ', '('] cs, cs.getLast? with
      | some i, some ')' =>
          (String.mk (cs.take i), some (String.mk ((cs.drop (i + 2)).dropLast)))
      | _, _ =>
          if cs.contains '@' then (v, some v) else (v, none)

/-- Modelled from the spec: `Trailer` construction from a raw
`key: value` pair — the key is matched case-insensitively against the
three well-known forms, anything else keeps the raw pair. -/
def trailerFromKeyValue (key value : String) : GitTrailer :=
  let k := lowerStr key
  if k = "co-authored-by" then
    GitTrailer.CoAuthoredBy (parseNameEmail value).1 (parseNameEmail value).2
  else if k = "reviewed-by" then
    GitTrailer.ReviewedBy (parseNameEmail value).1 (parseNameEmail value).2
  else if k = "signed-off-by" then
    GitTrailer.SignedOffBy (parseNameEmail value).1 (parseNameEmail value).2
  else
    GitTrailer.Other key value

/-- A blank line: nothing but whitespace. -/
def isBlankLine (line : String) : Bool :=
  line.data.all isWsChar

/-- Modelled from the spec: a trailer-block line `key: value` whose key
starts with a letter and contains only word characters or hyphens (spec
section 4.4 step 3). -/
def isTrailerLineB (line : String) : Bool :=
  let key := line.data.takeWhile (· ≠ ':')
  match line.data.dropWhile (· ≠ ':') with
  | ':' :: _ =>
      (match key with
       | [] => false
       | c :: rest => c.isAlpha && rest.all isWordHyChar)
  | _ => false

/-- Modelled from the spec: parse one trailer-block line into a
`Trailer`, the value being everything after the colon with leading
spaces dropped. -/
def trailerOfLine (line : String) : GitTrailer :=
  let key := line.data.takeWhile (· ≠ ':')
  let value := ((line.data.dropWhile (· ≠ ':')).drop 1).dropWhile (· = ' ')
  trailerFromKeyValue (String.mk key) (String.mk value)

/-- Closing keywords of linked-issue lines (spec section 4.4 step 2). -/
def issueKeywords : List String :=
  ["closes", "closed", "fixes", "fixed", "fix", "resolve", "resolves", "resolved"]

/-- Modelled from the spec: the issue reference after the keyword is
either `#N` or `owner/repo#N`, consuming the entire rest of the line. -/
def parseIssueRef (l : List Char) : Option LinkedIssue :=
  match l with
  | '#' :: ds =>
      if !ds.isEmpty && ds.all Char.isDigit then
        some { number := natOfDigits ds, owner := none, repo := none }
      else none
  | _ =>
      let owner := l.takeWhile (fun c => c ≠ '/' && c ≠ '#')
      match l.dropWhile (fun c => c ≠ '/' && c ≠ '#') with
      | '/' :: r1 =>
          let repo := r1.takeWhile (fun c => c ≠ '/' && c ≠ '#')
          match r1.dropWhile (fun c => c ≠ '/' && c ≠ '#') with
          | '#' :: ds =>
              if !owner.isEmpty && !repo.isEmpty && !ds.isEmpty &&
                  ds.all Char.isDigit then
                some { number := natOfDigits ds, owner := some (String.mk owner)
                       repo := some (String.mk repo) }
              else none
          | _ => none
      | _ => none

/-- One closing keyword attempt: the line (case-insensitively) starts
with the keyword, followed by `": "` or `" "`, followed by an issue
reference that reaches the end of the line. -/
def tryIssueKeyword (kw : String) (line : String) : Option LinkedIssue :=
  let l := line.data
  let k := kw.data
  if (l.take k.length).map Char.toLower = k then
    match l.drop k.length with
    | ':' :: ' ' :: r => parseIssueRef r
    | ' ' :: r => parseIssueRef r
    | _ => none
  else none

/-- Modelled from the spec: a line is a linked-issue reference if,
case-insensitively, it is exactly a closing keyword, `": "` or `" "`,
and `owner/repo#N` or `#N` (spec section 4.4 step 2). -/
def parseIssueLine (line : String) : Option LinkedIssue :=
  issueKeywords.foldr (fun kw acc => (tryIssueKeyword kw line).or acc) none

/-- Keeps the last occurrence of each linked issue (deduplication by
field-wise equality, spec section 4.4 step 6). -/
def dedupIssues : List LinkedIssue → List LinkedIssue
  | [] => []
  | x :: r => if x ∈ r then dedupIssues r else x :: dedupIssues r

/-- Lexicographic order on character lists. -/
def charsLe : List Char → List Char → Bool
  | [], _ => true
  | _ :: _, [] => false
  | a :: as, b :: bs => if a < b then true else if b < a then false else charsLe as bs

/-- Order on optional strings: `none` first, then lexicographic. -/
def optStrLe (a b : Option String) : Bool :=
  match a, b with
  | none, _ => true
  | some _, none => false
  | some x, some y => charsLe x.data y.data

/-- Modelled from the spec: the deterministic `(owner, repo, number)`
order on linked issues (spec section 3). -/
def issueLeB (a b : LinkedIssue) : Bool :=
  if a.owner = b.owner then
    if a.repo = b.repo then a.number ≤ b.number
    else optStrLe a.repo b.repo
  else optStrLe a.owner b.owner

/-- Insertion step of the linked-issue sort. -/
def insertIssue (x : LinkedIssue) : List LinkedIssue → List LinkedIssue
  | [] => [x]
  | y :: r => if issueLeB x y then x :: y :: r else y :: insertIssue x r

/-- Insertion sort of linked issues by `(owner, repo, number)`. -/
def sortIssues : List LinkedIssue → List LinkedIssue
  | [] => []
  | x :: r => insertIssue x (sortIssues r)

/-- Emits one run of consecutive blank lines (given reversed): runs of
three or more collapse to exactly one blank line, shorter runs are kept
as they were (spec section 4.4 step 4). -/
def emitBlankRun (run : List String) : List String :=
  if 3 ≤ run.length then [""] else run.reverse

/-- Worker of the blank-line normalization; `run` accumulates the
current run of blank lines in reverse. -/
def collapseAux : List String → List String → List String
  | [], run => emitBlankRun run
  | x :: rest, run =>
      if isBlankLine x then collapseAux rest (x :: run)
      else emitBlankRun run ++ x :: collapseAux rest []

/-- Modelled from the spec: collapse every run of three or more
consecutive blank lines to exactly one blank line. -/
def collapseBlanks (l : List String) : List String :=
  collapseAux l []

/-- Drops the leading and trailing runs of blank lines. -/
def dropBlanksEnds (l : List String) : List String :=
  ((l.dropWhile isBlankLine).reverse.dropWhile isBlankLine).reverse

/-- Modelled from the spec: message split into lines (spec section 4.4
step 1), plain split at every newline. -/
def linesOf (s : String) : List String :=
  (splitOnNl s.data).map String.mk

/-- Modelled from the spec: result of the Message Parser (spec
section 4.4): first line, optional body, ordered trailers, deduplicated
sorted linked issues. -/
structure ParsedMessage where
  first_line : String
  body : Option String
  trailers : List GitTrailer
  linked_issues : List LinkedIssue
deriving DecidableEq, Repr

/-- Lines of the message after the first that are not linked-issue
lines (issue lines are marked for removal from body consideration and
are not part of the trailer block). -/
def keptLines (rest : List String) : List String :=
  rest.filter (fun line => (parseIssueLine line).isNone)

/-- Modelled from the spec: the trailer block — the maximal trailing run
of blank or `key: value` lines, found scanning backward and stopping at
the first other line (spec section 4.4 step 3). -/
def trailerLinesOf (rest : List String) : List String :=
  ((keptLines rest).reverse.takeWhile
    (fun line => isBlankLine line || isTrailerLineB line)).reverse

/-- Modelled from the spec: the body lines — everything before the
trailer-block boundary, minus issue lines, minus the leading and
trailing blank runs, with long blank runs collapsed (spec section 4.4
step 4). -/
def bodyLinesOf (rest : List String) : List String :=
  let beforeBlock :=
    ((keptLines rest).reverse.dropWhile
      (fun line => isBlankLine line || isTrailerLineB line)).reverse
  collapseBlanks (dropBlanksEnds beforeBlock)

/-- Modelled from the spec: the Message Parser on an already-split
message (spec section 4.4): line 0 is the first line, the rest yields
body, trailers and linked issues; an empty body text gives `none`. -/
def parseMessageLines (lines : List String) : ParsedMessage :=
  let first := (lines.head?).getD ""
  let rest := lines.drop 1
  let bodyText := joinLines (bodyLinesOf rest)
  { first_line := first
    body := if bodyText = "" then none else some bodyText
    trailers :=
      ((trailerLinesOf rest).filter (fun line => !isBlankLine line)).map trailerOfLine
    linked_issues := sortIssues (dedupIssues (rest.filterMap parseIssueLine)) }

/-- Modelled from the spec: the Message Parser on one raw multi-line
commit message string. -/
def parseMessage (msg : String) : ParsedMessage :=
  parseMessageLines (linesOf msg)

/-- Head of the first line is a lowercase letter (the only way the
`[a-z]+` type capture can start matching). -/
def headLowerB (s : String) : Bool :=
  match s.data with
  | [] => false
  | ch :: _ => isLowerAlpha ch

theorem containsSub_append_left (pat a r : List Char)
    (h : containsSub pat r = true) : containsSub pat (a ++ r) = true := by
  induction a with
  | nil => simpa using h
  | cons c t ih => simp [containsSub, ih]

theorem containsSub_bang_colon (r3 : List Char) :
    containsSub ['!', ':'] ('!' :: ':' :: r3) = true := by
  simp [containsSub, List.isPrefixOf]

theorem parseScope_append (l : List Char) (sc : Option (List Char)) (r2 : List Char)
    (h : parseScope l = some (sc, r2)) : ∃ pre, l = pre ++ r2 := by
  cases l with
  | nil =>
      simp [parseScope] at h
      exact ⟨[], by simp [h.2]⟩
  | cons c r =>
      by_cases hc : c = '('
      · cases hd : r.dropWhile isScopeChar with
        | nil => simp [parseScope, hc, hd] at h
        | cons d rr =>
            by_cases hd2 : d = ')'
            · by_cases hne : (r.takeWhile isScopeChar).isEmpty = true
              · simp [parseScope, hc, hd, hd2, hne] at h
              · simp [parseScope, hc, hd, hd2, hne] at h
                refine ⟨c :: r.takeWhile isScopeChar ++ [d], ?_⟩
                have hr : r.takeWhile isScopeChar ++ r.dropWhile isScopeChar = r :=
                  List.takeWhile_append_dropWhile _ _
                conv_lhs => rw [← hr, hd]
                simp [h.2]
            · simp [parseScope, hc, hd, hd2] at h
      · simp [parseScope, hc] at h
        exact ⟨[], by simp [h.2]⟩

theorem parseHeader_true_contains (l ty : List Char) (sc : Option (List Char))
    (h : parseHeader l = some (ty, sc, true)) :
    containsSub ['!', ':'] l = true := by
  by_cases hty : (l.takeWhile isLowerAlpha).isEmpty = true
  · simp [parseHeader, hty] at h
  · cases hps : parseScope (l.dropWhile isLowerAlpha) with
    | none => simp [parseHeader, hty, hps] at h
    | some p =>
        obtain ⟨sc', r2⟩ := p
        cases hr2 : r2 with
        | nil => simp [parseHeader, hty, hps, hr2] at h
        | cons c0 rr =>
            by_cases hc0 : c0 = '!'
            · cases hrr : rr with
              | nil => simp [parseHeader, hty, hps, hr2, hc0, hrr] at h
              | cons d r3 =>
                  by_cases hd : d = ':'
                  · by_cases hw : wsThenAny r3 = true
                    · obtain ⟨pre, hpre⟩ := parseScope_append _ _ _ hps
                      have hl : l
                          = l.takeWhile isLowerAlpha ++ (pre ++ ('!' :: ':' :: r3)) := by
                        conv_lhs => rw [← List.takeWhile_append_dropWhile isLowerAlpha l]
                        rw [hpre, hr2, hrr, hc0, hd]
                      rw [hl]
                      exact containsSub_append_left _ _ _
                        (containsSub_append_left _ _ _ (containsSub_bang_colon r3))
                    · simp [parseHeader, hty, hps, hr2, hc0, hrr, hd, hw] at h
                  · simp [parseHeader, hty, hps, hr2, hc0, hrr, hd] at h
            · by_cases hc1 : c0 = ':'
              · by_cases hw : wsThenAny rr = true
                · simp [parseHeader, hty, hps, hr2, hc0, hc1, hw] at h
                · simp [parseHeader, hty, hps, hr2, hc0, hc1, hw] at h
              · simp [parseHeader, hty, hps, hr2, hc0, hc1] at h

/-- C3: a commit whose first line matches the conventional-commit header
with the breaking marker `!` present is categorized `Breaking`,
pre-empting the category its type would otherwise map to. -/
theorem c3_breaking_precedence (c : Commit) (ty : List Char) (sc : Option (List Char))
    (h : parseHeader c.first_line.data = some (ty, sc, true)) :
    categorize c = CommitCategory.Breaking := by
  have h2 : containsSub ['!', ':'] c.first_line.data = true :=
    parseHeader_true_contains _ _ _ h
  have hb : isBreaking c = true := by
    have h3 : strContains c.first_line "!:" = true := h2
    simp [isBreaking, h3]
  simp [categorize, hb]

/-- C3 witness: `feat!: drop legacy API` matches the header with the
breaking marker and is categorized `Breaking`. -/
theorem c3_breaking_precedence_witness :
    categorize (mkC "feat!: drop legacy API") = CommitCategory.Breaking :=
  c3_breaking_precedence (mkC "feat!: drop legacy API") "feat".data none (by decide)

/-- C10: any first line containing the substring `!:` anywhere — even
one that does not match the conventional-commit header at all — makes
`categorize` return `Breaking`. -/
theorem c10_contains_bang_colon_breaking (c : Commit)
    (h : strContains c.first_line "!:" = true) :
    categorize c = CommitCategory.Breaking := by
  have hb : isBreaking c = true := by simp [isBreaking, h]
  simp [categorize, hb]

/-- C10 witness: a non-conventional first line containing `!:` is
categorized `Breaking`. -/
theorem c10_contains_bang_colon_breaking_witness :
    categorize (mkC "no way!: this is not conventional") = CommitCategory.Breaking :=
  c10_contains_bang_colon_breaking (mkC "no way!: this is not conventional") (by decide)

/-- C7 counterexample: header matching is not case-insensitive on the
type — `FEAT: x` fails to parse and is categorized `Other`, while
`feat: x` parses and is categorized `Feature`. -/
theorem c7_case_counterexample :
    parseConventionalCommit "FEAT: x" = none
    ∧ parseConventionalCommit "feat: x" = some ("feat", none)
    ∧ categorize (mkC "FEAT: x") = CommitCategory.Other
    ∧ categorize (mkC "feat: x") = CommitCategory.Feature := by
  decide

/-- C7 amended: matching of the conventional-commit header is
case-sensitive — the type matches only lowercase `[a-z]+`, so a
non-breaking commit whose first line does not start with a lowercase
letter fails the header match and is categorized `Other`. -/
theorem c7_case_sensitive_amended (c : Commit)
    (hb : isBreaking c = false) (hl : headLowerB c.first_line = false) :
    categorize c = CommitCategory.Other := by
  have hph : parseHeader c.first_line.data = none := by
    cases hfd : c.first_line.data with
    | nil => simp [parseHeader]
    | cons ch rest =>
        have hch : isLowerAlpha ch = false := by
          unfold headLowerB at hl
          rw [hfd] at hl
          simpa using hl
        simp [parseHeader, hfd, List.takeWhile_cons, hch]
  simp [categorize, hb, parseConventionalCommit, hph]

/-- C7 amended witness: the uppercase-typed `FEAT: x` commit is not
breaking, does not start with a lowercase letter, and is `Other`. -/
theorem c7_case_sensitive_amended_witness :
    categorize (mkC "FEAT: x") = CommitCategory.Other :=
  c7_case_sensitive_amended (mkC "FEAT: x") (by decide) (by decide)

/-- C1: evaluation at the failing input — the `deps` scope override only
fires for types `fix`, `chore` and `build`, so `feat(deps): bump lib` is
categorized `Feature`, not `Dependencies` (the integration test
`categorizes_by_dependency_scope` expects `Dependencies` for every
type). -/
theorem c1_deps_scope_eval :
    categorize (mkC "feat(deps): bump lib") = CommitCategory.Feature
    ∧ categorize (mkC "test(deps): we are such stuff as dreams are made on")
        = CommitCategory.Test
    ∧ categorize (mkC "fix(deps): bump lib") = CommitCategory.Dependencies
    ∧ categorize (mkC "chore(deps): bump version") = CommitCategory.Dependencies := by
  decide

/-- C2: evaluation at the failing input — `categorize` maps type
`refactor` to `Feature`, and the `CommitCategory` enumeration of
`src/analyzer.rs` has no `Refactor` variant at all (the integration test
expects `CommitCategory::Refactor`). -/
theorem c2_refactor_eval :
    categorize (mkC "refactor: cowards die many times before their deaths")
      = CommitCategory.Feature := by
  decide

/-- C4: parsing `feat: x\n\nbody line\n\nSigned-off-by: A <a@x.com>`
yields body `Some("body line")` and exactly one trailer,
`SignedOffBy{name:"A", email:Some("a@x.com")}`; the trailer line is not
part of the body. -/
theorem c4_trailer_boundary :
    (parseMessage "feat: x\n\nbody line\n\nSigned-off-by: A <a@x.com>").body
        = some "body line"
    ∧ (parseMessage "feat: x\n\nbody line\n\nSigned-off-by: A <a@x.com>").trailers
        = [GitTrailer.SignedOffBy "A" (some "a@x.com")] := by
  decide

theorem analyze_apply_eq_filter (commits : List Commit) (cat : CommitCategory) :
    analyze commits cat = commits.filter (fun c => categorize c = cat) := by
  have key : ∀ (l : List Commit) (m : CategorizedCommits),
      (l.foldl (fun m c => fun cat => if cat = categorize c then m cat ++ [c] else m cat) m)
          cat
        = m cat ++ l.filter (fun c => categorize c = cat) := by
    intro l
    induction l with
    | nil => intro m; simp
    | cons c t ih =>
        intro m
        rw [List.foldl_cons, ih, List.filter_cons]
        by_cases hc : categorize c = cat
        · simp [hc]
        · have hc' : ¬(cat = categorize c) := fun h => hc h.symm
          simp [hc, hc']
  simpa [analyze] using key commits (fun _ => [])

/-- C9: `analyze` places each input commit in exactly one category's
bucket — it lands in the bucket of its category and in no other. -/
theorem c9_exactly_one_category (commits : List Commit) (c : Commit)
    (hc : c ∈ commits) : ∃! cat, c ∈ analyze commits cat := by
  refine ⟨categorize c, ?_, ?_⟩
  · show c ∈ analyze commits (categorize c)
    rw [analyze_apply_eq_filter]
    exact List.mem_filter.mpr ⟨hc, by simp⟩
  · intro cat h
    rw [analyze_apply_eq_filter] at h
    have h2 := (List.mem_filter.mp h).2
    simp at h2
    exact h2.symm

/-- C9 witness: in a two-commit list, the first commit occupies exactly
one bucket of the analysis. -/
theorem c9_exactly_one_category_witness :
    ∃! cat, mkC "feat: one" ∈ analyze [mkC "feat: one", mkC "fix: two"] cat :=
  c9_exactly_one_category [mkC "feat: one", mkC "fix: two"] (mkC "feat: one") (by simp)

theorem strMkData (s : String) : String.mk s.data = s := rfl

theorem isBlankLine_empty : isBlankLine "" = true := rfl

theorem splitOnNl_noNl (a : List Char) (h : '\n' ∉ a) : splitOnNl a = [a] := by
  induction a with
  | nil => rfl
  | cons c t ih =>
      have hc : ¬(c = '\n') := fun hh => h (by simp [hh])
      have ht : '\n' ∉ t := fun hm => h (List.mem_cons_of_mem _ hm)
      simp [splitOnNl, hc, ih ht]

theorem splitOnNl_append (a R : List Char) (h : '\n' ∉ a) :
    splitOnNl (a ++ '\n' :: R) = a :: splitOnNl R := by
  induction a with
  | nil => simp [splitOnNl]
  | cons c t ih =>
      have hc : ¬(c = '\n') := fun hh => h (by simp [hh])
      have ht : '\n' ∉ t := fun hm => h (List.mem_cons_of_mem _ hm)
      simp [splitOnNl, hc, ih ht]

theorem linesOf_joinLines (ls : List String) (hne : ls ≠ [])
    (h : ∀ l ∈ ls, '\n' ∉ l.data) : linesOf (joinLines ls) = ls := by
  induction ls with
  | nil => exact absurd rfl hne
  | cons x t ih =>
      cases t with
      | nil =>
          show (splitOnNl (joinLines [x]).data).map String.mk = [x]
          have hx : '\n' ∉ x.data := h x (by simp)
          show (splitOnNl x.data).map String.mk = [x]
          rw [splitOnNl_noNl x.data hx]
          simp [strMkData]
      | cons y t' =>
          have hx : '\n' ∉ x.data := h x (by simp)
          have hrec := ih (by simp) (fun l hl => h l (List.mem_cons_of_mem _ hl))
          have hdata : (joinLines (x :: y :: t')).data
              = x.data ++ '\n' :: (joinLines (y :: t')).data := by
            show (x ++ "\n" ++ joinLines (y :: t')).data = _
            simp [String.data_append]
          show (splitOnNl (joinLines (x :: y :: t')).data).map String.mk = x :: y :: t'
          rw [hdata, splitOnNl_append _ _ hx, List.map_cons, strMkData]
          exact congrArg (x :: ·) hrec

theorem collapseAux_replicate (n : Nat) (l acc : List String) :
    collapseAux (List.replicate n "" ++ l) acc
      = collapseAux l (List.replicate n "" ++ acc) := by
  induction n generalizing acc with
  | zero => simp
  | succ m ih =>
      have hstep : List.replicate (m + 1) ("" : String) ++ l
          = "" :: (List.replicate m "" ++ l) := by
        simp [List.replicate_succ]
      rw [hstep]
      show collapseAux ("" :: (List.replicate m "" ++ l)) acc = _
      rw [collapseAux]
      simp only [isBlankLine_empty, if_true]
      rw [ih]
      have hacc : List.replicate m ("" : String) ++ ("" :: acc)
          = List.replicate (m + 1) "" ++ acc := by
        rw [List.replicate_succ']
        simp
      rw [hacc]

theorem emitBlankRun_ge3 (n : Nat) (h : 3 ≤ n) :
    emitBlankRun (List.replicate n "") = [""] := by
  simp [emitBlankRun, h]


theorem parseMessage_eq (msg : String) :
    parseMessage msg = parseMessageLines (linesOf msg) := rfl

theorem parseMessageLines_body (lines : List String) :
    (parseMessageLines lines).body
      = (if joinLines (bodyLinesOf (lines.drop 1)) = "" then none
         else some (joinLines (bodyLinesOf (lines.drop 1)))) := rfl

/-- C5: a run of three or more blank lines between two body paragraphs
normalizes to exactly one blank line in the parsed body, and the parser
never produces a `Some` empty body — an empty body text is `None`. -/
theorem c5_blank_line_normalization :
    (∀ (p q : String) (n : Nat),
        3 ≤ n → '\n' ∉ p.data → '\n' ∉ q.data →
        isBlankLine p = false → isBlankLine q = false →
        parseIssueLine p = none → parseIssueLine q = none →
        isTrailerLineB q = false →
        (parseMessage (joinLines ("feat: x" :: p :: (List.replicate n "" ++ [q])))).body
          = some (p ++ "\n\n" ++ q))
    ∧ ∀ msg : String, (parseMessage msg).body ≠ some "" := by
  constructor
  · intro p q n h3 hpn hqn hpb hqb hpi hqi hqt
    have hlines : linesOf (joinLines ("feat: x" :: p :: (List.replicate n "" ++ [q])))
        = "feat: x" :: p :: (List.replicate n "" ++ [q]) := by
      apply linesOf_joinLines _ (by simp)
      intro l hl
      simp [List.mem_replicate] at hl
      rcases hl with rfl | rfl | ⟨-, rfl⟩ | rfl
      · decide
      · exact hpn
      · decide
      · exact hqn
    have hkept : keptLines (p :: (List.replicate n "" ++ [q]))
        = p :: (List.replicate n "" ++ [q]) := by
      apply List.filter_eq_self.mpr
      intro a ha
      simp [List.mem_replicate] at ha
      rcases ha with rfl | ⟨-, rfl⟩ | rfl
      · simp [hpi]
      · decide
      · simp [hqi]
    have hrev : (p :: (List.replicate n ("" : String) ++ [q])).reverse
        = q :: (List.replicate n "" ++ [p]) := by
      simp [List.reverse_replicate]
    have hqpred : ¬((isBlankLine q || isTrailerLineB q) = true) := by
      simp [hqb, hqt]
    have hbb : ((keptLines (p :: (List.replicate n "" ++ [q]))).reverse.dropWhile
          (fun line => isBlankLine line || isTrailerLineB line)).reverse
        = p :: (List.replicate n "" ++ [q]) := by
      rw [hkept, hrev, List.dropWhile_cons, if_neg hqpred, ← hrev, List.reverse_reverse]
    have hdbe : dropBlanksEnds (p :: (List.replicate n "" ++ [q]))
        = p :: (List.replicate n "" ++ [q]) := by
      unfold dropBlanksEnds
      rw [List.dropWhile_cons, if_neg (by simp [hpb]), hrev,
        List.dropWhile_cons, if_neg (by simp [hqb]), ← hrev, List.reverse_reverse]
    have hcoll : collapseBlanks (p :: (List.replicate n "" ++ [q])) = [p, "", q] := by
      unfold collapseBlanks
      rw [collapseAux]
      simp only [hpb, Bool.false_eq_true, if_false]
      rw [collapseAux_replicate]
      simp only [List.append_nil]
      rw [collapseAux]
      simp only [hqb, Bool.false_eq_true, if_false]
      simp [collapseAux, emitBlankRun, h3]
    have hbody : bodyLinesOf (p :: (List.replicate n "" ++ [q])) = [p, "", q] := by
      simp only [bodyLinesOf]
      rw [hbb, hdbe, hcoll]
    have hjoin : joinLines [p, "", q] = p ++ "\n\n" ++ q := by
      apply String.ext
      show (p ++ "\n" ++ ("" ++ "\n" ++ q)).data = (p ++ "\n\n" ++ q).data
      simp [String.data_append]
    have hne : ¬(p ++ "\n\n" ++ q = "") := by
      intro hcontra
      have h2 := congrArg String.data hcontra
      simp [String.data_append] at h2
    rw [parseMessage_eq, hlines, parseMessageLines_body]
    simp only [List.drop_succ_cons, List.drop_zero]
    rw [hbody, hjoin, if_neg hne]
  · intro msg h
    rw [parseMessage_eq, parseMessageLines_body] at h
    by_cases ht : joinLines (bodyLinesOf ((linesOf msg).drop 1)) = ""
    · rw [if_pos ht] at h
      exact Option.noConfusion h
    · rw [if_neg ht] at h
      exact ht (Option.some.inj h)

/-- C5 witness: four blank lines between two paragraphs collapse to one
blank line. -/
theorem c5_blank_line_normalization_witness :
    (parseMessage (joinLines ("feat: x" :: "aa" ::
        (List.replicate 4 "" ++ ["bb"])))).body = some ("aa" ++ "\n\n" ++ "bb") :=
  c5_blank_line_normalization.1 "aa" "bb" 4 (by decide) (by decide) (by decide)
    (by decide) (by decide) (by decide) (by decide) (by decide)

theorem parseMessageLines_issues (lines : List String) :
    (parseMessageLines lines).linked_issues
      = sortIssues (dedupIssues ((lines.drop 1).filterMap parseIssueLine)) := rfl

theorem mem_insertIssue (x a : LinkedIssue) (l : List LinkedIssue) :
    a ∈ insertIssue x l ↔ a = x ∨ a ∈ l := by
  induction l with
  | nil => simp [insertIssue]
  | cons y r ih =>
      by_cases h : issueLeB x y = true
      · simp [insertIssue, h]
      · simp [insertIssue, h, ih]
        tauto

theorem mem_sortIssues (a : LinkedIssue) (l : List LinkedIssue) :
    a ∈ sortIssues l ↔ a ∈ l := by
  induction l with
  | nil => simp [sortIssues]
  | cons x r ih => simp [sortIssues, mem_insertIssue, ih]

theorem mem_dedupIssues (a : LinkedIssue) (l : List LinkedIssue) :
    a ∈ dedupIssues l ↔ a ∈ l := by
  induction l with
  | nil => simp [dedupIssues]
  | cons x r ih =>
      by_cases h : x ∈ r
      · simp only [dedupIssues, if_pos h]
        rw [ih]
        constructor
        · exact fun h2 => List.mem_cons_of_mem _ h2
        · intro h2
          rcases List.mem_cons.mp h2 with rfl | h3
          · exact h
          · exact h3
      · simp [dedupIssues, h, ih]

theorem mem_emitBlankRun (x : String) (run : List String)
    (h : x ∈ emitBlankRun run) : x ∈ run ∨ x = "" := by
  unfold emitBlankRun at h
  by_cases h3 : 3 ≤ run.length
  · rw [if_pos h3] at h
    simp at h
    exact Or.inr h
  · rw [if_neg h3] at h
    simp at h
    exact Or.inl h

theorem mem_collapseAux (x : String) (l : List String) :
    ∀ acc, x ∈ collapseAux l acc → x ∈ l ∨ x ∈ acc ∨ x = "" := by
  induction l with
  | nil =>
      intro acc h
      have h' : x ∈ emitBlankRun acc := h
      rcases mem_emitBlankRun x acc h' with h2 | h2
      · exact Or.inr (Or.inl h2)
      · exact Or.inr (Or.inr h2)
  | cons y t ih =>
      intro acc h
      by_cases hy : isBlankLine y = true
      · have h' : x ∈ collapseAux t (y :: acc) := by rwa [collapseAux, if_pos hy] at h
        rcases ih _ h' with h2 | h2 | h2
        · exact Or.inl (List.mem_cons_of_mem _ h2)
        · rcases List.mem_cons.mp h2 with rfl | h3
          · exact Or.inl (List.mem_cons_self _ _)
          · exact Or.inr (Or.inl h3)
        · exact Or.inr (Or.inr h2)
      · have h' : x ∈ emitBlankRun acc ++ y :: collapseAux t [] := by
          rwa [collapseAux, if_neg hy] at h
        rcases List.mem_append.mp h' with h2 | h2
        · rcases mem_emitBlankRun x acc h2 with h3 | h3
          · exact Or.inr (Or.inl h3)
          · exact Or.inr (Or.inr h3)
        · rcases List.mem_cons.mp h2 with rfl | h3
          · exact Or.inl (List.mem_cons_self _ _)
          · rcases ih _ h3 with h4 | h4 | h4
            · exact Or.inl (List.mem_cons_of_mem _ h4)
            · exact absurd h4 (List.not_mem_nil x)
            · exact Or.inr (Or.inr h4)

theorem mem_dropBlanksEnds (x : String) (l : List String)
    (h : x ∈ dropBlanksEnds l) : x ∈ l := by
  unfold dropBlanksEnds at h
  rw [List.mem_reverse] at h
  have h2 := (List.dropWhile_sublist _).subset h
  rw [List.mem_reverse] at h2
  exact (List.dropWhile_sublist _).subset h2

theorem not_mem_bodyLinesOf (L : String) (rest : List String)
    (hL : ¬(parseIssueLine L = none)) (hLne : ¬(L = "")) :
    L ∉ bodyLinesOf rest := by
  intro hmem
  simp only [bodyLinesOf] at hmem
  rcases mem_collapseAux L _ [] hmem with h1 | h1 | h1
  · have h2 := mem_dropBlanksEnds _ _ h1
    rw [List.mem_reverse] at h2
    have h3 := (List.dropWhile_sublist _).subset h2
    rw [List.mem_reverse] at h3
    have h4 := (List.mem_filter.mp h3).2
    exact hL (Option.isNone_iff_eq_none.mp h4)
  · exact absurd h1 (List.not_mem_nil L)
  · exact hLne h1

/-- C6: every message containing the line `Fixes acme/widgets#42`
records the linked issue `{42, acme, widgets}` and that line never
appears among the body lines; a `closes #7` line records issue 7 with no
owner or repo. -/
theorem c6_linked_issue_extraction :
    (∀ pre post : List String,
      ({ number := 42, owner := some "acme", repo := some "widgets" } : LinkedIssue)
          ∈ (parseMessageLines
              ("feat: x" :: (pre ++ "Fixes acme/widgets#42" :: post))).linked_issues
      ∧ "Fixes acme/widgets#42" ∉ bodyLinesOf (pre ++ "Fixes acme/widgets#42" :: post))
    ∧ (parseMessage "feat: x\n\ncloses #7").linked_issues
        = [{ number := 7, owner := none, repo := none }] := by
  refine ⟨fun pre post => ⟨?_, ?_⟩, by decide⟩
  · have hparse : parseIssueLine "Fixes acme/widgets#42"
        = some { number := 42, owner := some "acme", repo := some "widgets" } := by
      decide
    rw [parseMessageLines_issues]
    simp only [List.drop_succ_cons, List.drop_zero]
    rw [mem_sortIssues, mem_dedupIssues]
    exact List.mem_filterMap.mpr ⟨"Fixes acme/widgets#42", by simp, hparse⟩
  · exact not_mem_bodyLinesOf _ _ (by decide) (by decide)

/-- C6 witness: a concrete message with a `Fixes` line records the
linked issue. -/
theorem c6_linked_issue_extraction_witness :
    ({ number := 42, owner := some "acme", repo := some "widgets" } : LinkedIssue)
        ∈ (parseMessageLines
            ("feat: x" :: (["ctx"] ++ "Fixes acme/widgets#42" :: []))).linked_issues :=
  (c6_linked_issue_extraction.1 ["ctx"] []).1

/-- C8: on the linear chain A(v1.0.0) → B → C(v2.0.0) with `v1.0.0`
older than `v2.0.0`, `history` from `v2.0.0` with no explicit `to`
takes the tag after `v2.0.0`'s position in the timestamp-descending tag
list as the exclusive upper bound, returning exactly C and B (newest
first) — the commits strictly after `v1.0.0` up to and including
`v2.0.0`'s commit. -/
theorem c8_range_exclusivity (mA mB mC a : String) (tA tB tC : Int)
    (h1 : tA < tB) (h2 : tB < tC) :
    simHistory
      { chain := [⟨mA, a, tA⟩, ⟨mB, a, tB⟩, ⟨mC, a, tC⟩]
        tags := [("v1.0.0", 0), ("v2.0.0", 2)] }
      (some "v2.0.0") none
      = some [simCommitOut 2 ⟨mC, a, tC⟩, simCommitOut 1 ⟨mB, a, tB⟩] := by
  have hAC : tA < tC := h1.trans h2
  have hns : detectNs (some "v2.0.0") = none := by decide
  have ht1 : tagMatchesNs "v1.0.0" none = true := by decide
  have ht2 : tagMatchesNs "v2.0.0" none = true := by decide
  have hs1 : isSemverTag "v1.0.0" = true := by decide
  have hs2 : isSemverTag "v2.0.0" = true := by decide
  have hsort : sortTagsDesc [("v1.0.0", 0, tA), ("v2.0.0", 2, tC)]
      = [("v2.0.0", 2, tC), ("v1.0.0", 0, tA)] := by
    simp [sortTagsDesc, insertByTimeDesc, hAC]
  have hload : loadTagsSorted
      { chain := [⟨mA, a, tA⟩, ⟨mB, a, tB⟩, ⟨mC, a, tC⟩]
        tags := [("v1.0.0", 0), ("v2.0.0", 2)] } none
      = [("v2.0.0", 2), ("v1.0.0", 0)] := by
    simp only [loadTagsSorted, List.filter, ht1, ht2, hs1, hs2, Bool.and_self,
      List.filterMap, List.get?]
    simp [hsort]
  have hres : simResolveRef
      { chain := [⟨mA, a, tA⟩, ⟨mB, a, tB⟩, ⟨mC, a, tC⟩]
        tags := [("v1.0.0", 0), ("v2.0.0", 2)] } "v2.0.0" = some 2 := by
    simp [simResolveRef, List.find?]
  simp only [simHistory, hns, hload, hres]
  simp [tagIdxPos, List.get?, List.range, List.filter, List.filterMap, simCommitOut,
    List.enum]

/-- C8 witness: concrete timestamps 10 < 20 < 30 give exactly commits C
then B. -/
theorem c8_range_exclusivity_witness :
    simHistory
      { chain := [⟨"one", "auth", 10⟩, ⟨"two", "auth", 20⟩, ⟨"three", "auth", 30⟩]
        tags := [("v1.0.0", 0), ("v2.0.0", 2)] }
      (some "v2.0.0") none
      = some [simCommitOut 2 ⟨"three", "auth", 30⟩, simCommitOut 1 ⟨"two", "auth", 20⟩] :=
  c8_range_exclusivity "one" "two" "three" "auth" 10 20 30 (by decide) (by decide)
